import Mathlib

set_option maxHeartbeats 4000000

/-!
Verification development for `golf_2d_pose_extraction_imgs.py`.

The script's own logic (beyond calls into the external pose-estimation
library) consists of:

* `sort_golf_swing_images(source_dir, target_dir)`: lists the `.jpg` files of
  `source_dir`, matches each against the regex
  `(.+?)_(\d{4})\.jpg_vis_results\.jpg` (via `re.match`, i.e. anchored at the
  start only), groups the matches by the captured prefix, creates eight fixed
  category directories, sorts each group by frame number and moves the first
  eight files of each group into the category directories by position;
* the per-image loop of `extract_pose_from_imgs`, whose skip-processed branch
  is modelled here as a pure step function on a driver state.

Everything is embedded as executable functions on lists and strings; the
filesystem is represented by the flat listing of the source directory, the
set of category directories, and an event trace.
-/

namespace GolfSort

open scoped List

/-- Characters of the literal part `.jpg_vis_results.jpg` that the regex
requires right after the four digits. -/
def tailLit : List Char := ".jpg_vis_results.jpg".toList

/-- One attempt of `re.match(r'(.+?)_(\d{4})\.jpg_vis_results\.jpg', s)` with
the lazy group `(.+?)` bound to the first `p` characters: those `p` characters
(at least one, none a newline, since `.` does not match newlines without
`re.DOTALL`) are group 1, the next character must be `_`, the following four
characters must be digits (group 2), and the literal `.jpg_vis_results.jpg`
must follow; any trailing characters are allowed because `re.match` anchors
only at the start of the string. -/
def checkAt (s : List Char) (p : Nat) : Option (List Char × List Char) :=
  let pre := s.take p
  let rest := s.drop p
  if 0 < p ∧ pre.length = p ∧ pre.all (fun c => c != '\n') then
    match rest with
    | '_' :: r1 =>
      let digs := r1.take 4
      let r2 := r1.drop 4
      if digs.length = 4 ∧ digs.all Char.isDigit ∧ tailLit.isPrefixOf r2 then
        some (pre, digs)
      else none
    | _ => none
  else none

/-- Numeric value of the captured digit string, as `int(number)` reads it. -/
def digitsVal (ds : List Char) : Nat :=
  ds.foldl (fun a c => a * 10 + (c.toNat - '0'.toNat)) 0

/-- Embedding of lines 79-82 of the script:
`match = re.match(r'(.+?)_(\d{4})\.jpg_vis_results\.jpg', file)` followed by
`prefix, number = match.groups()` and `int(number)`.  The lazy quantifier
`(.+?)` makes the engine succeed with the shortest group-1 length that lets
the rest of the pattern match, so the candidate lengths are tried in
increasing order. -/
def matchFile (file : String) : Option (String × Nat) :=
  let s := file.toList
  (List.range (s.length + 1)).findSome? (fun p =>
    (checkAt s p).map (fun g => (g.1.asString, digitsVal g.2)))

/-- The eight fixed action categories (lines 85-94). -/
def categories : List String :=
  ["0.Address", "1.Toe-up", "2.Mid-backswing", "3.Top",
   "4.Mid-downswing", "5.Impact", "6.Mid-follow-through", "7.Finish"]

/-- Text of `f"Note: Group {prefix} has {n} frames"` (line 108). -/
def noteMsg (pfx : String) (n : Nat) : String :=
  "Note: Group " ++ pfx ++ " has " ++ toString n ++ " frames"

/-- Text of the warning of line 113,
`f"Warning: More frames than categories for {prefix}, skipping extra frames"`. -/
def warnMsg (pfx : String) : String :=
  "Warning: More frames than categories for " ++ pfx ++ ", skipping extra frames"

/-- Text of `f"Moved {filename} to {categories[i]}"` (line 119). -/
def movedMsg (f c : String) : String :=
  "Moved " ++ f ++ " to " ++ c

/-- Destination path `os.path.join(target_dir, categories[i], filename)`
(line 117), on a POSIX filesystem. -/
def dstPath (target cat fname : String) : String :=
  target ++ "/" ++ cat ++ "/" ++ fname

/-- Embedding of `f.endswith('.jpg')` (line 73): whether `.jpg` is a suffix of
the filename. -/
def endsWithJpg (f : String) : Bool :=
  ".jpg".toList.isSuffixOf f.toList

/-- Embedding of `[f for f in os.listdir(source_dir) if f.endswith('.jpg')]`
(line 73), as a function of the flat directory listing. -/
def jpgOnly (listing : List String) : List String :=
  listing.filter (fun f => endsWithJpg f)

/-- Embedding of `groups[prefix].append((int(number), file))` on an insertion-ordered
dictionary (a `defaultdict(list)`): append the value to the entry of key
`pfx`, creating the entry at the end if the key is new. -/
def addToGroups (gs : List (String × List (Nat × String))) (pfx : String)
    (v : Nat × String) : List (String × List (Nat × String)) :=
  match gs with
  | [] => [(pfx, [v])]
  | (q, vs) :: rest =>
    if q = pfx then (q, vs ++ [v]) :: rest
    else (q, vs) :: addToGroups rest pfx v

/-- One iteration of the grouping loop (lines 77-82): a file that matches the
regex is appended to its prefix's group, any other file is ignored. -/
def stepGroup (gs : List (String × List (Nat × String))) (f : String) :
    List (String × List (Nat × String)) :=
  match matchFile f with
  | some q => addToGroups gs q.1 (q.2, f)
  | none => gs

/-- The grouping loop over the whole `.jpg` listing: a mapping from prefix to
the list of `(frame number, filename)` pairs, in insertion order. -/
def buildGroups (files : List String) : List (String × List (Nat × String)) :=
  files.foldl stepGroup []

/-- The sort key of line 105 (`key=lambda x: x[0]`). -/
def leNum (a b : Nat × String) : Prop := a.1 ≤ b.1

instance : DecidableRel leNum :=
  fun a b => inferInstanceAs (Decidable (a.1 ≤ b.1))

instance : IsTotal (Nat × String) leNum :=
  ⟨fun a b => Nat.le_total a.1 b.1⟩

instance : IsTrans (Nat × String) leNum :=
  ⟨fun _ _ _ h₁ h₂ => Nat.le_trans h₁ h₂⟩

/-- Embedding of `sorted(files, key=lambda x: x[0])` (line 105).  Python's `sorted` is a
stable comparison sort; a stable insertion sort on the key order has the same
input/output behaviour. -/
def sortByNum (files : List (Nat × String)) : List (Nat × String) :=
  List.insertionSort leNum files

/-- The moves performed for one group (lines 111-118): walk the sorted group
together with the category list — `enumerate` plus the `i >= len(categories)`
break truncates at eight — and move each file to its positional category.
Each move is recorded as `(filename, category)`. -/
def groupMoves (files : List (Nat × String)) : List (String × String) :=
  ((sortByNum files).zip categories).map (fun v => (v.1.2, v.2))

/-- The console output for one group: the size note (line 108) when the group
does not have exactly 8 members, one `Moved ...` line per performed move
(line 119), and the excess warning (line 113) when the loop hits `i >=
len(categories)`. -/
def groupLog (pfx : String) (files : List (Nat × String)) : List String :=
  (if (sortByNum files).length ≠ 8
   then [noteMsg pfx (sortByNum files).length] else [])
  ++ ((sortByNum files).zip categories).map (fun v => movedMsg v.1.2 v.2)
  ++ (if categories.length < (sortByNum files).length
      then [warnMsg pfx] else [])

/-- All moves performed by `sort_golf_swing_images` on a directory whose flat
listing is `listing`, in execution order: groups in insertion order, files of
a group in ascending frame-number order. -/
def movesOf (listing : List String) : List (String × String) :=
  (buildGroups (jpgOnly listing)).flatMap (fun g => groupMoves g.2)

/-- Everything `sort_golf_swing_images` prints, in order. -/
def logOf (listing : List String) : List String :=
  (buildGroups (jpgOnly listing)).flatMap (fun g => groupLog g.1 g.2)

/-- The flat listing of the source directory after the run: `shutil.move`
removes each moved file from the source directory, one move at a time. -/
def remainingAfter (listing : List String) : List String :=
  (movesOf listing).foldl (fun acc m => acc.erase m.1) listing

/-- The category-directory creation loop (lines 96-100): for each category in
order, create its directory unless it already exists.  `pre` is the list of
category directories existing under the target before the run. -/
def dirsAfter (pre : List String) : List String :=
  categories.foldl (fun ds c => if ds.contains c then ds else ds ++ [c]) pre

/-- A filesystem side effect of `sort_golf_swing_images`: a directory
creation (`os.makedirs`, line 100) or a file move (`shutil.move`, line 118,
recorded as filename and destination category). -/
inductive FsEvent where
  | mkdirEvt : String → FsEvent
  | moveEvt : String → String → FsEvent
deriving DecidableEq

/-- Whether an event is a directory creation. -/
def FsEvent.isMkdir : FsEvent → Bool
  | .mkdirEvt _ => true
  | .moveEvt _ _ => false

/-- The sequence of filesystem side effects of one run of
`sort_golf_swing_images`: the creation of the missing category directories
(lines 96-100), followed by all file moves (lines 103-118). -/
def evTrace (pre : List String) (listing : List String) : List FsEvent :=
  (categories.filter (fun c => !(pre.contains c))).map FsEvent.mkdirEvt
  ++ (movesOf listing).map (fun m => FsEvent.moveEvt m.1 m.2)

/-! ### The per-image loop of `extract_pose_from_imgs` (lines 161-173)

The output folder is modelled as an association list from file path to file
content; the content written by `process_image` is fully determined by the
source image path and is abstracted by it (the pixels come from the external
inference/visualization library, which is out of scope). -/

/-- Output path `os.path.join(output_folder, f"{file}_vis_results.jpg")` (line 162). -/
def outPathOf (outputFolder file : String) : String :=
  outputFolder ++ "/" ++ file ++ "_vis_results.jpg"

/-- Text of `f'Image {file} already processed. Skipping...'` (line 165). -/
def skipMsg (file : String) : String :=
  "Image " ++ file ++ " already processed. Skipping..."

/-- State of the driver while looping over images: the files of the output
folder (path and content), the progress-bar count, and the printed log. -/
structure DrvState where
  outFiles : List (String × String)
  progress : Nat
  log : List String
deriving DecidableEq

/-- Embedding of `os.path.exists(out_path)` against the modelled output folder. -/
def hasFile (fs : List (String × String)) (p : String) : Bool :=
  fs.any (fun e => e.1 == p)

/-- Writing `out_path` (the `out_file` of `visualizer.add_datasample`):
overwrite the entry if the path exists, append it otherwise. -/
def writeFile (fs : List (String × String)) (p content : String) :
    List (String × String) :=
  if hasFile fs p then fs.map (fun e => if e.1 == p then (e.1, content) else e)
  else fs ++ [(p, content)]

/-- The content `process_image` leaves at `out_path`, abstracted by the input
image path it is computed from (the rendering itself happens inside the
external library). -/
def renderContent (filePath : String) : String :=
  "vis_of " ++ filePath

/-- The body of the inner image loop (lines 161-173): when the skip flag is
set and the output file already exists, print the skip message, advance the
progress bar and continue; otherwise run `process_image` (which writes the
output file) and advance the progress bar. -/
def stepImage (skipProcessed : Bool) (outputFolder subFolderPath : String)
    (st : DrvState) (file : String) : DrvState :=
  let outp := outPathOf outputFolder file
  if skipProcessed ∧ hasFile st.outFiles outp then
    ⟨st.outFiles, st.progress + 1, st.log ++ [skipMsg file]⟩
  else
    ⟨writeFile st.outFiles outp (renderContent (subFolderPath ++ "/" ++ file)),
     st.progress + 1, st.log⟩

/-- The inner image loop over the (sorted) `.jpg` files of one subfolder. -/
def runImages (skipProcessed : Bool) (outputFolder subFolderPath : String)
    (files : List String) (st : DrvState) : DrvState :=
  files.foldl (stepImage skipProcessed outputFolder subFolderPath) st

/-! ### Lemmas about the grouping dictionary -/

/-- The keys of the grouping dictionary, in insertion order. -/
def keysOf (gs : List (String × List (Nat × String))) : List String :=
  gs.map Prod.fst

/-- The entry of key `P` in the grouping dictionary (the empty list when the
key is absent). -/
def contentOf (P : String) (gs : List (String × List (Nat × String))) :
    List (Nat × String) :=
  match gs.find? (fun g => g.1 == P) with
  | some g => g.2
  | none => []

/-- The `(frame number, filename)` pairs that the files of `l` contribute to
the group of prefix `P`, in listing order. -/
def pfxPairs (P : String) (l : List String) : List (Nat × String) :=
  l.filterMap (fun f => match matchFile f with
    | some q => if q.1 = P then some (q.2, f) else none
    | none => none)

/-- Invariant of the grouping dictionary: every member of a group carries the
prefix and frame number that its filename matches to. -/
def goodG (gs : List (String × List (Nat × String))) : Prop :=
  ∀ g ∈ gs, ∀ v ∈ g.2, matchFile v.2 = some (g.1, v.1)

theorem keysOf_nil : keysOf [] = [] := rfl

theorem keysOf_cons (g : String × List (Nat × String)) (gs) :
    keysOf (g :: gs) = g.1 :: keysOf gs := rfl

theorem addToGroups_nil (pfx : String) (v : Nat × String) :
    addToGroups [] pfx v = [(pfx, [v])] := rfl

theorem addToGroups_cons (r : String) (vs : List (Nat × String)) (rest pfx v) :
    addToGroups ((r, vs) :: rest) pfx v
      = if r = pfx then (r, vs ++ [v]) :: rest
        else (r, vs) :: addToGroups rest pfx v := rfl

theorem contentOf_nil (P : String) : contentOf P [] = [] := rfl

theorem contentOf_cons_self {g : String × List (Nat × String)} {rest : List (String × List (Nat × String))} {P : String}
    (h : g.1 = P) : contentOf P (g :: rest) = g.2 := by
  unfold contentOf
  rw [List.find?_cons_of_pos _ (by simp [h])]

theorem contentOf_cons_ne {g : String × List (Nat × String)} {rest : List (String × List (Nat × String))} {P : String}
    (h : g.1 ≠ P) : contentOf P (g :: rest) = contentOf P rest := by
  unfold contentOf
  rw [List.find?_cons_of_neg _ (by simp [h])]

theorem contentOf_addToGroups (gs : List (String × List (Nat × String)))
    (q P : String) (v : Nat × String) :
    contentOf P (addToGroups gs q v)
      = contentOf P gs ++ (if q = P then [v] else []) := by
  induction gs with
  | nil =>
    by_cases h : q = P
    · rw [if_pos h]
      show contentOf P [(q, [v])] = [] ++ [v]
      rw [contentOf_cons_self h, List.nil_append]
    · rw [if_neg h]
      show contentOf P [(q, [v])] = [] ++ []
      rw [contentOf_cons_ne h]
      rfl
  | cons g rest ih =>
    obtain ⟨r, vs⟩ := g
    rw [addToGroups_cons]
    by_cases hrq : r = q
    · rw [if_pos hrq]
      by_cases hrP : r = P
      · rw [contentOf_cons_self hrP, contentOf_cons_self hrP,
          if_pos (hrq.symm.trans hrP)]
      · have hqP : q ≠ P := fun h => hrP (hrq.trans h)
        rw [contentOf_cons_ne hrP, contentOf_cons_ne hrP, if_neg hqP,
          List.append_nil]
    · rw [if_neg hrq]
      by_cases hrP : r = P
      · have hqP : q ≠ P := fun h => hrq (hrP.trans h.symm)
        rw [contentOf_cons_self hrP, contentOf_cons_self hrP, if_neg hqP,
          List.append_nil]
      · rw [contentOf_cons_ne hrP, contentOf_cons_ne hrP, ih]

theorem pfxPairs_nil (P : String) : pfxPairs P [] = [] := rfl

theorem pfxPairs_cons_none {f : String} {P : String} (l : List String)
    (hm : matchFile f = none) : pfxPairs P (f :: l) = pfxPairs P l := by
  simp [pfxPairs, List.filterMap_cons, hm]

theorem pfxPairs_cons_pos {f : String} {P : String} {q : String × Nat}
    (l : List String) (hm : matchFile f = some q) (hq : q.1 = P) :
    pfxPairs P (f :: l) = (q.2, f) :: pfxPairs P l := by
  simp [pfxPairs, List.filterMap_cons, hm, hq]

theorem pfxPairs_cons_neg {f : String} {P : String} {q : String × Nat}
    (l : List String) (hm : matchFile f = some q) (hq : q.1 ≠ P) :
    pfxPairs P (f :: l) = pfxPairs P l := by
  simp [pfxPairs, List.filterMap_cons, hm, hq]

theorem mem_pfxPairs {P : String} {l : List String} {v : Nat × String}
    (h : v ∈ pfxPairs P l) : v.2 ∈ l ∧ matchFile v.2 = some (P, v.1) := by
  unfold pfxPairs at h
  rw [List.mem_filterMap] at h
  obtain ⟨a, ha, hfa⟩ := h
  cases hm : matchFile a with
  | none =>
    simp only [hm] at hfa
    cases hfa
  | some q =>
    simp only [hm] at hfa
    by_cases hq : q.1 = P
    · rw [if_pos hq] at hfa
      have hv : v = (q.2, a) := (Option.some.inj hfa).symm
      subst hv
      refine ⟨ha, ?_⟩
      rw [hm, ← hq]
    · rw [if_neg hq] at hfa
      cases hfa

theorem contentOf_foldl (P : String) : ∀ (l : List String)
    (gs : List (String × List (Nat × String))),
    contentOf P (l.foldl stepGroup gs) = contentOf P gs ++ pfxPairs P l
  | [], gs => by rw [List.foldl_nil, pfxPairs_nil, List.append_nil]
  | f :: l, gs => by
    rw [List.foldl_cons, contentOf_foldl P l (stepGroup gs f)]
    unfold stepGroup
    cases hm : matchFile f with
    | none => rw [pfxPairs_cons_none l hm]
    | some q =>
      rw [contentOf_addToGroups]
      by_cases hq : q.1 = P
      · rw [pfxPairs_cons_pos l hm hq, if_pos hq, List.append_assoc]
        rfl
      · rw [pfxPairs_cons_neg l hm hq, if_neg hq, List.append_nil]

theorem buildGroups_contentOf (P : String) (l : List String) :
    contentOf P (buildGroups l) = pfxPairs P l := by
  unfold buildGroups
  rw [contentOf_foldl, contentOf_nil, List.nil_append]

theorem goodG_nil : goodG [] := by
  intro g hg
  cases hg

theorem goodG_addToGroups {q : String} {n : Nat} {f : String}
    (hm : matchFile f = some (q, n)) :
    ∀ {gs : List (String × List (Nat × String))}, goodG gs →
      goodG (addToGroups gs q (n, f)) := by
  intro gs
  induction gs with
  | nil =>
    intro _ g hgmem v hv
    show matchFile v.2 = some (g.1, v.1)
    rw [addToGroups_nil, List.mem_singleton] at hgmem
    subst hgmem
    rw [List.mem_singleton] at hv
    subst hv
    exact hm
  | cons g0 rest ih =>
    intro hg g hgmem v hv
    obtain ⟨r, vs⟩ := g0
    have hgRest : goodG rest := fun h hh w hw =>
      hg h (List.mem_cons_of_mem _ hh) w hw
    rw [addToGroups_cons] at hgmem
    by_cases hr : r = q
    · rw [if_pos hr] at hgmem
      rcases List.mem_cons.mp hgmem with rfl | hmem
      · rcases List.mem_append.mp hv with hv1 | hv2
        · exact hg (r, vs) (List.mem_cons_self _ _) v hv1
        · rw [List.mem_singleton] at hv2
          subst hv2
          show matchFile f = some (r, n)
          rw [hr]
          exact hm
      · exact hg g (List.mem_cons_of_mem _ hmem) v hv
    · rw [if_neg hr] at hgmem
      rcases List.mem_cons.mp hgmem with rfl | hmem
      · exact hg (r, vs) (List.mem_cons_self _ _) v hv
      · exact ih hgRest g hmem v hv

theorem goodG_foldl : ∀ (l : List String)
    (gs : List (String × List (Nat × String))), goodG gs →
    goodG (l.foldl stepGroup gs)
  | [], _, hg => hg
  | f :: l, gs, hg => by
    rw [List.foldl_cons]
    apply goodG_foldl l
    unfold stepGroup
    cases hm : matchFile f with
    | none => exact hg
    | some q => exact goodG_addToGroups (by rw [hm]) hg

theorem goodG_buildGroups (l : List String) : goodG (buildGroups l) :=
  goodG_foldl l [] goodG_nil

theorem keysOf_addToGroups (gs : List (String × List (Nat × String)))
    (q : String) (v : Nat × String) :
    keysOf (addToGroups gs q v)
      = if q ∈ keysOf gs then keysOf gs else keysOf gs ++ [q] := by
  induction gs with
  | nil =>
    rw [keysOf_nil, if_neg (List.not_mem_nil q)]
    rfl
  | cons g rest ih =>
    obtain ⟨r, vs⟩ := g
    rw [addToGroups_cons]
    by_cases hr : r = q
    · subst hr
      rw [if_pos rfl, keysOf_cons, keysOf_cons,
        if_pos (List.mem_cons_self _ _)]
    · rw [if_neg hr, keysOf_cons, keysOf_cons, ih]
      by_cases hq : q ∈ keysOf rest
      · rw [if_pos hq, if_pos (List.mem_cons_of_mem _ hq)]
      · rw [if_neg hq, if_neg ?_, List.cons_append]
        intro hmem
        rcases List.mem_cons.mp hmem with h1 | h2
        · exact hr h1.symm
        · exact hq h2

theorem keysNodup_foldl : ∀ (l : List String)
    (gs : List (String × List (Nat × String))), (keysOf gs).Nodup →
    (keysOf (l.foldl stepGroup gs)).Nodup
  | [], _, h => h
  | f :: l, gs, h => by
    rw [List.foldl_cons]
    apply keysNodup_foldl l
    unfold stepGroup
    cases hm : matchFile f with
    | none => exact h
    | some q =>
      rw [keysOf_addToGroups]
      by_cases hq : q.1 ∈ keysOf gs
      · rw [if_pos hq]; exact h
      · rw [if_neg hq, List.nodup_append]
        exact ⟨h, List.nodup_singleton _, by
          intro a ha hb
          rw [List.mem_singleton] at hb
          subst hb
          exact hq ha⟩

theorem keysNodup_buildGroups (l : List String) :
    (keysOf (buildGroups l)).Nodup :=
  keysNodup_foldl l [] List.nodup_nil

theorem entry_content : ∀ {gs : List (String × List (Nat × String))},
    (keysOf gs).Nodup → ∀ {P : String} {vs : List (Nat × String)},
    (P, vs) ∈ gs → contentOf P gs = vs := by
  intro gs
  induction gs with
  | nil => intro _ _ _ h; cases h
  | cons g rest ih =>
    intro hk P vs hmem
    rcases List.mem_cons.mp hmem with heq | hmem'
    · subst heq
      exact contentOf_cons_self rfl
    · have h1 : g.1 ≠ P := by
        intro h
        have hP : P ∈ keysOf rest := List.mem_map_of_mem Prod.fst hmem'
        rw [keysOf_cons] at hk
        exact (List.nodup_cons.mp hk).1 (h ▸ hP)
      rw [contentOf_cons_ne h1]
      rw [keysOf_cons] at hk
      exact ih (List.nodup_cons.mp hk).2 hmem'

theorem exists_entry {P : String} {gs : List (String × List (Nat × String))}
    (h : contentOf P gs ≠ []) : (P, contentOf P gs) ∈ gs := by
  rcases hfind : gs.find? (fun g => g.1 == P) with _ | g
  · exfalso
    apply h
    unfold contentOf
    rw [hfind]
  · have hg : g ∈ gs := List.mem_of_find?_eq_some hfind
    have hp : g.1 = P := by
      have hp' := List.find?_some hfind
      simpa using hp'
    have hco : contentOf P gs = g.2 := by
      unfold contentOf
      rw [hfind]
    rw [hco, ← hp]
    exact hg

/-! ### Zip, erase and directory-creation helpers -/

theorem zip_map_fst {α β : Type} : ∀ (xs : List α) (ys : List β),
    (xs.zip ys).map Prod.fst = xs.take ys.length
  | [], ys => by simp
  | x :: xs, [] => by simp
  | x :: xs, y :: ys => by
    rw [List.zip_cons_cons, List.map_cons, List.length_cons,
      List.take_succ_cons, zip_map_fst xs ys]

theorem zip_map_snd {α β : Type} : ∀ (xs : List α) (ys : List β),
    (xs.zip ys).map Prod.snd = ys.take xs.length
  | [], ys => by simp
  | x :: xs, [] => by simp
  | x :: xs, y :: ys => by
    rw [List.zip_cons_cons, List.map_cons, List.length_cons,
      List.take_succ_cons, zip_map_snd xs ys]

theorem foldl_erase_sublist : ∀ (names acc : List String),
    names.foldl (fun a n => a.erase n) acc <+ acc
  | [], acc => List.Sublist.refl acc
  | n :: ns, acc => by
    rw [List.foldl_cons]
    exact (foldl_erase_sublist ns (acc.erase n)).trans (List.erase_sublist n acc)

theorem mem_foldl_erase : ∀ (names acc : List String) (f : String),
    (∀ n ∈ names, n ≠ f) → f ∈ acc →
    f ∈ names.foldl (fun a n => a.erase n) acc
  | [], _, _, _, hf => hf
  | n :: ns, acc, f, hne, hf => by
    rw [List.foldl_cons]
    refine mem_foldl_erase ns _ f
      (fun m hm => hne m (List.mem_cons_of_mem _ hm)) ?_
    have hnf : n ≠ f := hne n (List.mem_cons_self _ _)
    exact (List.mem_erase_of_ne fun h => hnf h.symm).mpr hf

theorem not_mem_foldl_erase_of_not_mem (names acc : List String) (f : String)
    (h : f ∉ acc) : f ∉ names.foldl (fun a n => a.erase n) acc :=
  fun hmem => h ((foldl_erase_sublist names acc).subset hmem)

theorem nodup_foldl_erase : ∀ (names acc : List String), acc.Nodup →
    (names.foldl (fun a n => a.erase n) acc).Nodup
  | [], _, h => h
  | n :: ns, acc, h => by
    rw [List.foldl_cons]
    exact nodup_foldl_erase ns _ (h.erase n)

theorem not_mem_foldl_erase : ∀ (names acc : List String) (f : String),
    f ∈ names → acc.Nodup → f ∉ names.foldl (fun a n => a.erase n) acc
  | [], _, _, h, _ => absurd h (List.not_mem_nil _)
  | n :: ns, acc, f, hmem, hnd => by
    rw [List.foldl_cons]
    by_cases hnf : n = f
    · subst hnf
      exact not_mem_foldl_erase_of_not_mem ns _ n hnd.not_mem_erase
    · rcases List.mem_cons.mp hmem with h1 | h2
      · exact absurd h1.symm hnf
      · exact not_mem_foldl_erase ns _ f h2 (hnd.erase n)

theorem remainingAfter_eq (l : List String) :
    remainingAfter l
      = ((movesOf l).map Prod.fst).foldl (fun a n => a.erase n) l := by
  unfold remainingAfter
  rw [List.foldl_map]

theorem mem_dirsAfter_aux : ∀ (cs ds : List String) (c : String),
    c ∈ cs ∨ c ∈ ds →
    c ∈ cs.foldl (fun ds c' => if ds.contains c' then ds else ds ++ [c']) ds
  | [], ds, c, h => by
    rcases h with h | h
    · exact absurd h (List.not_mem_nil c)
    · exact h
  | c' :: cs, ds, c, h => by
    rw [List.foldl_cons]
    have hsub : ∀ x ∈ ds, x ∈ (if ds.contains c' then ds else ds ++ [c']) := by
      intro x hx
      split
      · exact hx
      · exact List.mem_append_left _ hx
    have hc' : c' ∈ (if ds.contains c' then ds else ds ++ [c']) := by
      split
      case isTrue hin => exact List.elem_iff.mp hin
      case isFalse => exact List.mem_append_right _ (List.mem_singleton_self _)
    rcases h with h | h
    · rcases List.mem_cons.mp h with rfl | h2
      · exact mem_dirsAfter_aux cs _ c (Or.inr hc')
      · exact mem_dirsAfter_aux cs _ c (Or.inl h2)
    · exact mem_dirsAfter_aux cs _ c (Or.inr (hsub c h))

theorem mem_dirsAfter (pre : List String) {c : String} (h : c ∈ categories) :
    c ∈ dirsAfter pre :=
  mem_dirsAfter_aux categories pre c (Or.inl h)

theorem mem_dirsAfter_of_pre (pre : List String) {d : String} (h : d ∈ pre) :
    d ∈ dirsAfter pre :=
  mem_dirsAfter_aux categories pre d (Or.inr h)

/-! ### A listing whose files all share one extracted prefix builds a single
group -/

theorem foldl_single (P : String) : ∀ (l : List String)
    (vs : List (Nat × String)),
    (∀ f ∈ l, ∃ n, matchFile f = some (P, n)) →
    l.foldl stepGroup [(P, vs)] = [(P, vs ++ pfxPairs P l)]
  | [], vs, _ => by rw [List.foldl_nil, pfxPairs_nil, List.append_nil]
  | f :: l, vs, h => by
    obtain ⟨n, hn⟩ := h f (List.mem_cons_self _ _)
    rw [List.foldl_cons]
    have hstep : stepGroup [(P, vs)] f = [(P, vs ++ [(n, f)])] := by
      unfold stepGroup
      simp [hn, addToGroups_cons]
    rw [hstep,
      foldl_single P l (vs ++ [(n, f)])
        (fun g hg => h g (List.mem_cons_of_mem _ hg)),
      pfxPairs_cons_pos l hn rfl, List.append_assoc, List.singleton_append]

theorem buildGroups_single (P : String) : ∀ (l : List String), l ≠ [] →
    (∀ f ∈ l, ∃ n, matchFile f = some (P, n)) →
    buildGroups l = [(P, pfxPairs P l)]
  | [], h, _ => absurd rfl h
  | f :: l, _, h => by
    obtain ⟨n, hn⟩ := h f (List.mem_cons_self _ _)
    unfold buildGroups
    rw [List.foldl_cons]
    have hstep : stepGroup [] f = [(P, [(n, f)])] := by
      unfold stepGroup
      simp [hn, addToGroups_nil]
    rw [hstep,
      foldl_single P l [(n, f)] (fun g hg => h g (List.mem_cons_of_mem _ hg)),
      pfxPairs_cons_pos l hn rfl, List.singleton_append]

/-! ### Facts about the sort of line 105 -/

theorem sortByNum_perm (files : List (Nat × String)) : sortByNum files ~ files :=
  List.perm_insertionSort leNum files

theorem sortByNum_sorted (files : List (Nat × String)) :
    List.Sorted leNum (sortByNum files) :=
  List.sorted_insertionSort leNum files

theorem sortByNum_length (files : List (Nat × String)) :
    (sortByNum files).length = files.length :=
  (sortByNum_perm files).length_eq

theorem sortByNum_map_fst_sorted (files : List (Nat × String)) :
    List.Sorted (· ≤ ·) ((sortByNum files).map Prod.fst) := by
  have h := sortByNum_sorted files
  rw [List.Sorted, List.pairwise_map]
  exact h

theorem sorted_le_range (n : Nat) : List.Sorted (· ≤ ·) (List.range n) :=
  (List.pairwise_lt_range n).imp Nat.le_of_lt

theorem categories_length : categories.length = 8 := rfl

theorem mem_groupMoves {vs : List (Nat × String)} {m : String × String}
    (h : m ∈ groupMoves vs) :
    ∃ v, v ∈ vs ∧ m.1 = v.2 ∧ m.2 ∈ categories := by
  unfold groupMoves at h
  rw [List.mem_map] at h
  obtain ⟨z, hz, hm⟩ := h
  have h2 := List.of_mem_zip hz
  refine ⟨z.1, (sortByNum_perm vs).mem_iff.mp h2.1, ?_, ?_⟩
  · rw [← hm]
  · rw [← hm]
    exact h2.2

/-- The central sorting fact: in a group whose frame numbers are exactly
`0,…,7` (in any order), the file numbered `n` is moved to the category of
index `n`. -/
theorem groupMoves_full {C : List (Nat × String)} {n : Nat} {f : String}
    (hperm : C.map Prod.fst ~ List.range 8) (hmem : (n, f) ∈ C) :
    (f, categories.getD n "") ∈ groupMoves C := by
  have hperm2 : (sortByNum C).map Prod.fst ~ List.range 8 :=
    ((sortByNum_perm C).map Prod.fst).trans hperm
  have heq : (sortByNum C).map Prod.fst = List.range 8 :=
    List.eq_of_perm_of_sorted hperm2 (sortByNum_map_fst_sorted C)
      (sorted_le_range 8)
  have hlen : (sortByNum C).length = 8 := by
    have hl := congrArg List.length heq
    rwa [List.length_map, List.length_range] at hl
  have hmemS : (n, f) ∈ sortByNum C := (sortByNum_perm C).mem_iff.mpr hmem
  obtain ⟨i, hi, hgi⟩ := List.getElem_of_mem hmemS
  have hin8 : i < 8 := hlen ▸ hi
  have h1 : ((sortByNum C).map Prod.fst)[i]? = some n := by
    rw [List.getElem?_map, List.getElem?_eq_getElem hi, hgi]
    rfl
  rw [heq] at h1
  have h2 : (List.range 8)[i]? = some i := by
    rw [List.getElem?_eq_getElem (by simpa using hin8)]
    rw [List.getElem_range]
  have hni : n = i := by
    rw [h1] at h2
    exact Option.some.inj h2
  subst hni
  have hnz : n < ((sortByNum C).zip categories).length := by
    rw [List.length_zip, hlen, categories_length, Nat.min_self]
    exact hin8
  have hncat : n < categories.length := by
    rw [categories_length]
    exact hin8
  apply List.mem_map.mpr
  have hslen : n < (sortByNum C).length := hi
  have hz : ((sortByNum C).zip categories)[n]
      = ((sortByNum C)[n], categories[n]) := List.getElem_zip
  refine ⟨((sortByNum C).zip categories)[n], List.getElem_mem hnz, ?_⟩
  rw [hz]
  show (((sortByNum C)[n]).2, categories[n]) = (f, categories.getD n "")
  have hgd : categories.getD n "" = categories[n] :=
    List.getD_eq_getElem _ _ hncat
  rw [hgi, hgd]

/-! ### Where a moved file can come from, and lookup independence -/

theorem lookup_none_of_keys {xs : List (String × String)} {a : String}
    (h : ∀ x ∈ xs, x.1 ≠ a) : List.lookup a xs = none := by
  rw [List.lookup_eq_none_iff]
  intro p hp
  rw [bne_iff_ne]
  exact fun he => h p hp he.symm

theorem lookup_group_none {f P : String} {n : Nat}
    (hf : matchFile f = some (P, n)) {g : String × List (Nat × String)}
    (hgood : ∀ v ∈ g.2, matchFile v.2 = some (g.1, v.1)) (hne : g.1 ≠ P) :
    List.lookup f (groupMoves g.2) = none := by
  apply lookup_none_of_keys
  intro x hx hxf
  obtain ⟨v, hv, hx1, _⟩ := mem_groupMoves hx
  rw [hx1] at hxf
  have hmv := hgood v hv
  rw [hxf, hf] at hmv
  injection hmv with hmv'
  exact hne (congrArg Prod.fst hmv').symm

theorem lookup_flatMap_none {f P : String} {n : Nat}
    (hf : matchFile f = some (P, n)) :
    ∀ {gs : List (String × List (Nat × String))}, goodG gs →
    (∀ g ∈ gs, g.1 ≠ P) →
    List.lookup f (gs.flatMap (fun g => groupMoves g.2)) = none := by
  intro gs
  induction gs with
  | nil => intro _ _; rfl
  | cons g rest ih =>
    intro hgood hne
    rw [List.flatMap_cons, List.lookup_append]
    rw [lookup_group_none hf (hgood g (List.mem_cons_self _ _))
      (hne g (List.mem_cons_self _ _))]
    rw [Option.none_or]
    exact ih (fun h hh w hw => hgood h (List.mem_cons_of_mem _ hh) w hw)
      (fun h hh => hne h (List.mem_cons_of_mem _ hh))

theorem lookup_flatMap_groups {f P : String} {n : Nat}
    (hf : matchFile f = some (P, n)) :
    ∀ {gs : List (String × List (Nat × String))}, goodG gs →
    (keysOf gs).Nodup →
    List.lookup f (gs.flatMap (fun g => groupMoves g.2))
      = List.lookup f (groupMoves (contentOf P gs)) := by
  intro gs
  induction gs with
  | nil =>
    intro _ _
    rw [contentOf_nil]
    rfl
  | cons g rest ih =>
    intro hgood hk
    have hgoodR : goodG rest := fun h hh w hw =>
      hgood h (List.mem_cons_of_mem _ hh) w hw
    have hkR : (keysOf rest).Nodup := by
      rw [keysOf_cons] at hk
      exact (List.nodup_cons.mp hk).2
    rw [List.flatMap_cons, List.lookup_append]
    by_cases hgP : g.1 = P
    · rw [contentOf_cons_self hgP]
      have hrest : List.lookup f (rest.flatMap (fun g => groupMoves g.2))
          = none := by
        apply lookup_flatMap_none hf hgoodR
        intro h hh hhP
        rw [keysOf_cons] at hk
        have hP : g.1 ∈ keysOf rest := by
          rw [hgP, ← hhP]
          exact List.mem_map_of_mem Prod.fst hh
        exact (List.nodup_cons.mp hk).1 hP
      rw [hrest, Option.or_none]
    · rw [contentOf_cons_ne hgP,
        lookup_group_none hf (hgood g (List.mem_cons_self _ _)) hgP,
        Option.none_or]
      exact ih hgoodR hkR

theorem lookup_movesOf {l : List String} {f P : String} {n : Nat}
    (hf : matchFile f = some (P, n)) :
    List.lookup f (movesOf l)
      = List.lookup f (groupMoves (pfxPairs P (jpgOnly l))) := by
  unfold movesOf
  rw [lookup_flatMap_groups hf (goodG_buildGroups _) (keysNodup_buildGroups _),
    buildGroups_contentOf]

theorem mem_movesOf {l : List String} {m : String × String}
    (h : m ∈ movesOf l) :
    m.1 ∈ l ∧ m.2 ∈ categories ∧ ∃ q, matchFile m.1 = some q := by
  unfold movesOf at h
  rw [List.mem_flatMap] at h
  obtain ⟨g, hg, hmm⟩ := h
  obtain ⟨v, hv, h1, h2⟩ := mem_groupMoves hmm
  have hgood := goodG_buildGroups (jpgOnly l) g hg v hv
  have hcontent : contentOf g.1 (buildGroups (jpgOnly l)) = g.2 :=
    entry_content (keysNodup_buildGroups _) hg
  have hpf : v ∈ pfxPairs g.1 (jpgOnly l) := by
    rw [← buildGroups_contentOf, hcontent]
    exact hv
  refine ⟨?_, h2, ⟨(g.1, v.1), by rw [h1]; exact hgood⟩⟩
  rw [h1]
  exact List.mem_of_mem_filter (mem_pfxPairs hpf).1

theorem groupMoves_sub_movesOf {l : List String} {P : String}
    (hne : pfxPairs P (jpgOnly l) ≠ []) {m : String × String}
    (hm : m ∈ groupMoves (pfxPairs P (jpgOnly l))) : m ∈ movesOf l := by
  unfold movesOf
  rw [List.mem_flatMap]
  refine ⟨(P, pfxPairs P (jpgOnly l)), ?_, hm⟩
  have h2 : (P, contentOf P (buildGroups (jpgOnly l))) ∈ buildGroups (jpgOnly l) := by
    apply exists_entry
    rw [buildGroups_contentOf]
    exact hne
  rw [buildGroups_contentOf] at h2
  exact h2

/-! ### No file is moved twice -/

theorem pfxPairs_names_nodup {P : String} : ∀ {l : List String}, l.Nodup →
    ((pfxPairs P l).map Prod.snd).Nodup := by
  intro l
  induction l with
  | nil => intro _; rw [pfxPairs_nil]; exact List.nodup_nil
  | cons f l ih =>
    intro hnd
    have h1 := (List.nodup_cons.mp hnd).1
    have h2 := (List.nodup_cons.mp hnd).2
    cases hm : matchFile f with
    | none =>
      rw [pfxPairs_cons_none l hm]
      exact ih h2
    | some q =>
      by_cases hq : q.1 = P
      · rw [pfxPairs_cons_pos l hm hq, List.map_cons, List.nodup_cons]
        refine ⟨?_, ih h2⟩
        intro hmem
        rw [List.mem_map] at hmem
        obtain ⟨v, hv, hveq⟩ := hmem
        have hveq' : v.2 = f := hveq
        exact h1 (hveq' ▸ (mem_pfxPairs hv).1)
      · rw [pfxPairs_cons_neg l hm hq]
        exact ih h2

theorem groupMoves_names (vs : List (Nat × String)) :
    (groupMoves vs).map Prod.fst
      = ((sortByNum vs).take categories.length).map Prod.snd := by
  unfold groupMoves
  rw [List.map_map, ← zip_map_fst (sortByNum vs) categories, List.map_map]
  exact List.map_congr_left (fun a _ => rfl)

theorem groupMoves_names_nodup {vs : List (Nat × String)}
    (h : (vs.map Prod.snd).Nodup) : ((groupMoves vs).map Prod.fst).Nodup := by
  rw [groupMoves_names]
  have hperm : (sortByNum vs).map Prod.snd ~ vs.map Prod.snd :=
    (sortByNum_perm vs).map _
  have hnd : ((sortByNum vs).map Prod.snd).Nodup := hperm.symm.nodup h
  exact hnd.sublist ((List.take_sublist _ _).map Prod.snd)

theorem flatMap_names_nodup : ∀ {gs : List (String × List (Nat × String))},
    goodG gs → (keysOf gs).Nodup →
    (∀ g ∈ gs, ((groupMoves g.2).map Prod.fst).Nodup) →
    ((gs.flatMap (fun g => groupMoves g.2)).map Prod.fst).Nodup := by
  intro gs
  induction gs with
  | nil => intro _ _ _; exact List.nodup_nil
  | cons g rest ih =>
    intro hgood hk hper
    have hgoodR : goodG rest := fun h hh w hw =>
      hgood h (List.mem_cons_of_mem _ hh) w hw
    have hkR : (keysOf rest).Nodup := by
      rw [keysOf_cons] at hk
      exact (List.nodup_cons.mp hk).2
    rw [List.flatMap_cons, List.map_append, List.nodup_append]
    refine ⟨hper g (List.mem_cons_self _ _),
      ih hgoodR hkR (fun h hh => hper h (List.mem_cons_of_mem _ hh)), ?_⟩
    intro a ha hb
    rw [List.mem_map] at ha hb
    obtain ⟨m1, hm1, he1⟩ := ha
    obtain ⟨m2, hm2, he2⟩ := hb
    rw [List.mem_flatMap] at hm2
    obtain ⟨h, hh, hmh⟩ := hm2
    obtain ⟨v1, hv1, h11, _⟩ := mem_groupMoves hm1
    obtain ⟨v2, hv2, h21, _⟩ := mem_groupMoves hmh
    have e1 := hgood g (List.mem_cons_self _ _) v1 hv1
    have e2 := hgood h (List.mem_cons_of_mem _ hh) v2 hv2
    have hv1a : v1.2 = a := by rw [← h11, he1]
    have hv2a : v2.2 = a := by rw [← h21, he2]
    rw [hv1a] at e1
    rw [hv2a, e1] at e2
    injection e2 with e2'
    injection e2' with hgh hnn
    rw [keysOf_cons] at hk
    exact (List.nodup_cons.mp hk).1 (hgh ▸ List.mem_map_of_mem Prod.fst hh)

theorem movesOf_names_nodup {l : List String} (hnd : l.Nodup) :
    ((movesOf l).map Prod.fst).Nodup := by
  unfold movesOf
  apply flatMap_names_nodup (goodG_buildGroups _) (keysNodup_buildGroups _)
  intro g hg
  apply groupMoves_names_nodup
  have hcontent : contentOf g.1 (buildGroups (jpgOnly l)) = g.2 :=
    entry_content (keysNodup_buildGroups _) hg
  rw [← hcontent, buildGroups_contentOf]
  exact pfxPairs_names_nodup (hnd.filter _)

/-! ### A directory that holds exactly one group -/

theorem pfxPairs_of_match {P : String} {num : String → Nat} :
    ∀ {l : List String}, (∀ f ∈ l, matchFile f = some (P, num f)) →
    pfxPairs P l = l.map (fun f => (num f, f)) := by
  intro l
  induction l with
  | nil => intro _; rfl
  | cons f l ih =>
    intro h
    rw [pfxPairs_cons_pos l (h f (List.mem_cons_self _ _)) rfl, List.map_cons,
      ih (fun g hg => h g (List.mem_cons_of_mem _ hg))]

theorem movesOf_single {fs : List String} {P : String} {num : String → Nat}
    (hjpg : ∀ f ∈ fs, endsWithJpg f = true)
    (hmatch : ∀ f ∈ fs, matchFile f = some (P, num f))
    (hne : fs ≠ []) :
    movesOf fs = groupMoves (fs.map (fun f => (num f, f)))
    ∧ logOf fs = groupLog P (fs.map (fun f => (num f, f))) := by
  have hjl : jpgOnly fs = fs := List.filter_eq_self.mpr hjpg
  have hbg : buildGroups fs = [(P, pfxPairs P fs)] :=
    buildGroups_single P fs hne (fun f hf => ⟨num f, hmatch f hf⟩)
  have hpp : pfxPairs P fs = fs.map (fun f => (num f, f)) :=
    pfxPairs_of_match hmatch
  constructor
  · unfold movesOf
    rw [hjl, hbg, List.flatMap_cons, List.flatMap_nil, List.append_nil, hpp]
  · unfold logOf
    rw [hjl, hbg, List.flatMap_cons, List.flatMap_nil, List.append_nil, hpp]

theorem buildGroups_nil_of_none : ∀ {l : List String},
    (∀ f ∈ l, matchFile f = none) → buildGroups l = []
  | [], _ => rfl
  | f :: l, h => by
    unfold buildGroups
    rw [List.foldl_cons]
    have hstep : stepGroup [] f = [] := by
      unfold stepGroup
      simp only [h f (List.mem_cons_self _ _)]
    rw [hstep]
    exact buildGroups_nil_of_none (fun g hg => h g (List.mem_cons_of_mem _ hg))

/-! ### The claims -/

/-- C1: For every group of exactly 8 filenames sharing one extracted prefix
whose 4-digit frame numbers are 0 through 7, listed in arbitrary order, the
sorter assigns the file with the i-th smallest frame number to category i;
in particular the lowest-numbered file is moved into `0.Address` and the
highest-numbered file into `7.Finish`. -/
theorem C1_full_group_positions (fs : List String) (P : String)
    (num : String → Nat)
    (hjpg : ∀ f ∈ fs, endsWithJpg f = true)
    (hmatch : ∀ f ∈ fs, matchFile f = some (P, num f))
    (hperm : fs.map num ~ List.range 8) :
    ∀ f ∈ fs, (f, categories.getD (num f) "") ∈ movesOf fs
      ∧ (num f = 0 → (f, "0.Address") ∈ movesOf fs)
      ∧ (num f = 7 → (f, "7.Finish") ∈ movesOf fs) := by
  have hne : fs ≠ [] := by
    intro h
    subst h
    have hlen := hperm.length_eq
    simp at hlen
  have hmv := (movesOf_single hjpg hmatch hne).1
  have hmapfst : (fs.map (fun f => (num f, f))).map Prod.fst ~ List.range 8 := by
    rw [List.map_map]
    exact hperm
  intro f hf
  have hmem : (num f, f) ∈ fs.map (fun f => (num f, f)) :=
    List.mem_map_of_mem _ hf
  have hmain : (f, categories.getD (num f) "") ∈ movesOf fs := by
    rw [hmv]
    exact groupMoves_full hmapfst hmem
  refine ⟨hmain, ?_, ?_⟩
  · intro h0
    rw [h0] at hmain
    exact hmain
  · intro h7
    rw [h7] at hmain
    exact hmain

theorem C1_witness :
    ("a_0000.jpg_vis_results.jpg", "0.Address")
        ∈ movesOf ["a_0003.jpg_vis_results.jpg", "a_0007.jpg_vis_results.jpg",
          "a_0001.jpg_vis_results.jpg", "a_0005.jpg_vis_results.jpg",
          "a_0000.jpg_vis_results.jpg", "a_0006.jpg_vis_results.jpg",
          "a_0002.jpg_vis_results.jpg", "a_0004.jpg_vis_results.jpg"]
    ∧ ("a_0007.jpg_vis_results.jpg", "7.Finish")
        ∈ movesOf ["a_0003.jpg_vis_results.jpg", "a_0007.jpg_vis_results.jpg",
          "a_0001.jpg_vis_results.jpg", "a_0005.jpg_vis_results.jpg",
          "a_0000.jpg_vis_results.jpg", "a_0006.jpg_vis_results.jpg",
          "a_0002.jpg_vis_results.jpg", "a_0004.jpg_vis_results.jpg"] := by
  have h := C1_full_group_positions
    ["a_0003.jpg_vis_results.jpg", "a_0007.jpg_vis_results.jpg",
     "a_0001.jpg_vis_results.jpg", "a_0005.jpg_vis_results.jpg",
     "a_0000.jpg_vis_results.jpg", "a_0006.jpg_vis_results.jpg",
     "a_0002.jpg_vis_results.jpg", "a_0004.jpg_vis_results.jpg"] "a"
    (fun f => ((matchFile f).getD ("", 0)).2) (by decide) (by decide) (by decide)
  exact ⟨(h _ (by decide)).2.1 (by decide), (h _ (by decide)).2.2 (by decide)⟩

/-- C2: a filename that the regex does not match (`re.match` returns `None`)
is never moved: it names no move, and it is still in the source directory
after the run. -/
theorem C2_nonmatching_untouched (l : List String) (f : String)
    (hm : matchFile f = none) (hmem : f ∈ l) :
    (∀ m ∈ movesOf l, m.1 ≠ f) ∧ f ∈ remainingAfter l := by
  have hmoves : ∀ m ∈ movesOf l, m.1 ≠ f := by
    intro m hmv heq
    obtain ⟨-, -, q, hq⟩ := mem_movesOf hmv
    rw [heq, hm] at hq
    cases hq
  refine ⟨hmoves, ?_⟩
  rw [remainingAfter_eq]
  apply mem_foldl_erase _ _ f _ hmem
  intro nm hnm
  rw [List.mem_map] at hnm
  obtain ⟨m, hmv, hf⟩ := hnm
  rw [← hf]
  exact hmoves m hmv

theorem C2_witness :
    "IMG01.jpg" ∈ remainingAfter
      ["readme.txt", "a_0001.jpg_vis_results.jpg", "IMG01.jpg"] :=
  (C2_nonmatching_untouched
    ["readme.txt", "a_0001.jpg_vis_results.jpg", "IMG01.jpg"] "IMG01.jpg"
    (by decide) (by decide)).2

/-- C3: a filename that strictly extends the pattern — here extra characters
`.copy.jpg` follow `_vis_results.jpg` — still matches, because `re.match`
anchors only at the start; the sorter groups it under the prefix and frame
number of the matching initial segment and moves it into a category folder. -/
theorem C3_trailing_extension_moved :
    matchFile "a_0001.jpg_vis_results.jpg.copy.jpg" = some ("a", 1)
    ∧ buildGroups (jpgOnly ["a_0001.jpg_vis_results.jpg.copy.jpg"])
        = [("a", [(1, "a_0001.jpg_vis_results.jpg.copy.jpg")])]
    ∧ movesOf ["a_0001.jpg_vis_results.jpg.copy.jpg"]
        = [("a_0001.jpg_vis_results.jpg.copy.jpg", "0.Address")] := by
  decide

/-- C6: on a directory whose flat listing has no `.jpg` file matching the
pattern (for instance an output directory that is already sorted), the
sorter moves nothing, prints nothing and leaves the listing unchanged, so a
second run is a no-op. -/
theorem C6_no_matching_noop (l : List String)
    (h : ∀ f ∈ l, endsWithJpg f = true → matchFile f = none) :
    movesOf l = [] ∧ logOf l = [] ∧ remainingAfter l = l := by
  have hjlh : ∀ f ∈ jpgOnly l, matchFile f = none := fun f hf =>
    h f (List.mem_of_mem_filter hf) (List.of_mem_filter hf)
  have hbg : buildGroups (jpgOnly l) = [] := buildGroups_nil_of_none hjlh
  have hm : movesOf l = [] := by
    unfold movesOf
    rw [hbg]
    rfl
  refine ⟨hm, ?_, ?_⟩
  · unfold logOf
    rw [hbg]
    rfl
  · unfold remainingAfter
    rw [hm]
    rfl

theorem groupMoves_cats (vs : List (Nat × String)) :
    (groupMoves vs).map Prod.snd = categories.take (sortByNum vs).length := by
  unfold groupMoves
  rw [List.map_map, ← zip_map_snd (sortByNum vs) categories]
  exact List.map_congr_left (fun a _ => rfl)

theorem pair_fst_eq {num : String → Nat} {fs : List String} {v : Nat × String}
    (h : v ∈ fs.map (fun f => (num f, f))) : v.1 = num v.2 ∧ v.2 ∈ fs := by
  rw [List.mem_map] at h
  obtain ⟨f, hf, he⟩ := h
  cases he
  exact ⟨rfl, hf⟩

theorem sortByNum_strict {fs : List String} {num : String → Nat}
    (hnd : (fs.map num).Nodup) :
    List.Pairwise (fun a b => a.1 < b.1)
      (sortByNum (fs.map (fun f => (num f, f)))) := by
  have hle := sortByNum_sorted (fs.map (fun f => (num f, f)))
  have hkeysnd :
      ((sortByNum (fs.map (fun f => (num f, f)))).map Prod.fst).Nodup := by
    have hpermMap : (sortByNum (fs.map (fun f => (num f, f)))).map Prod.fst
        ~ (fs.map (fun f => (num f, f))).map Prod.fst :=
      (sortByNum_perm _).map _
    apply hpermMap.symm.nodup
    rw [List.map_map]
    exact hnd
  have hne : List.Pairwise (fun a b : Nat × String => a.1 ≠ b.1)
      (sortByNum (fs.map (fun f => (num f, f)))) :=
    List.pairwise_map.mp hkeysnd
  exact (hle.and hne).imp (fun h => Nat.lt_of_le_of_ne h.1 h.2)

theorem pairwise_take_drop {α : Type} {R : α → α → Prop} {s : List α}
    (h : List.Pairwise R s) (k : Nat) :
    ∀ a ∈ s.take k, ∀ b ∈ s.drop k, R a b := by
  have hs : s.take k ++ s.drop k = s := List.take_append_drop k s
  rw [← hs] at h
  exact (List.pairwise_append.mp h).2.2

/-- C4: a group with more than 8 members moves exactly the first 8 members
in ascending frame-number order into the 8 category folders, prints the
excess warning, and each member at sorted position 8 or beyond is not the
subject of any move, stays in the source directory, and has a strictly
larger frame number than every moved file. -/
theorem C4_excess_group (fs : List String) (P : String) (num : String → Nat)
    (hjpg : ∀ f ∈ fs, endsWithJpg f = true)
    (hmatch : ∀ f ∈ fs, matchFile f = some (P, num f))
    (hnd : (fs.map num).Nodup)
    (hlen : 8 < fs.length) :
    (movesOf fs).map Prod.fst
        = ((sortByNum (fs.map (fun f => (num f, f)))).take 8).map Prod.snd
    ∧ (movesOf fs).map Prod.snd = categories
    ∧ warnMsg P ∈ logOf fs
    ∧ ∀ v ∈ (sortByNum (fs.map (fun f => (num f, f)))).drop 8,
        (∀ m ∈ movesOf fs, m.1 ≠ v.2 ∧ num m.1 < v.1)
        ∧ v.2 ∈ remainingAfter fs := by
  have hne : fs ≠ [] := by
    intro h
    subst h
    simp at hlen
  obtain ⟨hmv, hlg⟩ := movesOf_single hjpg hmatch hne
  have hslen : (sortByNum (fs.map (fun f => (num f, f)))).length = fs.length := by
    rw [sortByNum_length, List.length_map]
  have h8le : 8 ≤ (sortByNum (fs.map (fun f => (num f, f)))).length := by
    rw [hslen]
    exact le_of_lt hlen
  have hcross := pairwise_take_drop (sortByNum_strict hnd) 8
  have hmprop : ∀ v ∈ (sortByNum (fs.map (fun f => (num f, f)))).drop 8,
      ∀ m ∈ movesOf fs, m.1 ≠ v.2 ∧ num m.1 < v.1 := by
    intro v hv m hm
    have hvp : v ∈ fs.map (fun f => (num f, f)) :=
      (sortByNum_perm _).mem_iff.mp ((List.drop_sublist _ _).subset hv)
    have hvinfo := pair_fst_eq hvp
    rw [hmv] at hm
    have hm1 : m.1 ∈ ((sortByNum (fs.map (fun f => (num f, f)))).take
        categories.length).map Prod.snd := by
      rw [← groupMoves_names]
      exact List.mem_map_of_mem Prod.fst hm
    rw [List.mem_map] at hm1
    obtain ⟨u, hu, hu2⟩ := hm1
    rw [categories_length] at hu
    have hult := hcross u hu v hv
    have hup : u ∈ fs.map (fun f => (num f, f)) :=
      (sortByNum_perm _).mem_iff.mp ((List.take_sublist _ _).subset hu)
    have huinfo := pair_fst_eq hup
    constructor
    · intro heq
      have hkey : u.1 = v.1 := by
        rw [huinfo.1, hu2, heq, ← hvinfo.1]
      exact absurd hkey (Nat.ne_of_lt hult)
    · rw [← hu2, ← huinfo.1]
      exact hult
  refine ⟨?_, ?_, ?_, ?_⟩
  · rw [hmv, groupMoves_names, categories_length]
  · rw [hmv, groupMoves_cats]
    apply List.take_of_length_le
    rw [categories_length]
    exact h8le
  · rw [hlg]
    unfold groupLog
    apply List.mem_append_right
    have hwc : categories.length
        < (sortByNum (fs.map (fun f => (num f, f)))).length := by
      rw [categories_length, hslen]
      exact hlen
    rw [if_pos hwc]
    exact List.mem_singleton_self _
  · intro v hv
    refine ⟨hmprop v hv, ?_⟩
    have hvp : v ∈ fs.map (fun f => (num f, f)) :=
      (sortByNum_perm _).mem_iff.mp ((List.drop_sublist _ _).subset hv)
    rw [remainingAfter_eq]
    apply mem_foldl_erase _ _ _ _ (pair_fst_eq hvp).2
    intro nm hnm
    rw [List.mem_map] at hnm
    obtain ⟨m, hmm, hmf⟩ := hnm
    rw [← hmf]
    exact (hmprop v hv m hmm).1

theorem C4_witness :
    warnMsg "c" ∈ logOf
      ["c_0006.jpg_vis_results.jpg", "c_0002.jpg_vis_results.jpg",
       "c_0009.jpg_vis_results.jpg", "c_0000.jpg_vis_results.jpg",
       "c_0004.jpg_vis_results.jpg", "c_0008.jpg_vis_results.jpg",
       "c_0001.jpg_vis_results.jpg", "c_0005.jpg_vis_results.jpg",
       "c_0003.jpg_vis_results.jpg", "c_0007.jpg_vis_results.jpg"]
    ∧ "c_0009.jpg_vis_results.jpg" ∈ remainingAfter
      ["c_0006.jpg_vis_results.jpg", "c_0002.jpg_vis_results.jpg",
       "c_0009.jpg_vis_results.jpg", "c_0000.jpg_vis_results.jpg",
       "c_0004.jpg_vis_results.jpg", "c_0008.jpg_vis_results.jpg",
       "c_0001.jpg_vis_results.jpg", "c_0005.jpg_vis_results.jpg",
       "c_0003.jpg_vis_results.jpg", "c_0007.jpg_vis_results.jpg"] := by
  have h := C4_excess_group
    ["c_0006.jpg_vis_results.jpg", "c_0002.jpg_vis_results.jpg",
     "c_0009.jpg_vis_results.jpg", "c_0000.jpg_vis_results.jpg",
     "c_0004.jpg_vis_results.jpg", "c_0008.jpg_vis_results.jpg",
     "c_0001.jpg_vis_results.jpg", "c_0005.jpg_vis_results.jpg",
     "c_0003.jpg_vis_results.jpg", "c_0007.jpg_vis_results.jpg"] "c"
    (fun f => ((matchFile f).getD ("", 0)).2)
    (by decide) (by decide) (by decide) (by decide)
  exact ⟨h.2.2.1,
    (h.2.2.2 (9, "c_0009.jpg_vis_results.jpg") (by decide)).2⟩

/-- C5: a group with fewer than 8 members moves all its members in ascending
frame-number order into only the first that-many category folders, logs the
size note with the actual count, leaves the remaining categories without a
file from this group, and all 8 category folders still exist after the run. -/
theorem C5_short_group (fs : List String) (P : String) (num : String → Nat)
    (hjpg : ∀ f ∈ fs, endsWithJpg f = true)
    (hmatch : ∀ f ∈ fs, matchFile f = some (P, num f))
    (hne : fs ≠ [])
    (hlen : fs.length < 8) :
    (movesOf fs).map Prod.fst
        = (sortByNum (fs.map (fun f => (num f, f)))).map Prod.snd
    ∧ (movesOf fs).map Prod.snd = categories.take fs.length
    ∧ noteMsg P fs.length ∈ logOf fs
    ∧ List.Sorted (· ≤ ·) ((movesOf fs).map (fun m => num m.1))
    ∧ (∀ c ∈ categories.drop fs.length, ∀ m ∈ movesOf fs, m.2 ≠ c)
    ∧ (∀ pre, ∀ c ∈ categories, c ∈ dirsAfter pre) := by
  obtain ⟨hmv, hlg⟩ := movesOf_single hjpg hmatch hne
  have hslen : (sortByNum (fs.map (fun f => (num f, f)))).length = fs.length := by
    rw [sortByNum_length, List.length_map]
  have ha : (movesOf fs).map Prod.fst
      = (sortByNum (fs.map (fun f => (num f, f)))).map Prod.snd := by
    rw [hmv, groupMoves_names, categories_length,
      List.take_of_length_le (by rw [hslen]; exact le_of_lt hlen)]
  have hb : (movesOf fs).map Prod.snd = categories.take fs.length := by
    rw [hmv, groupMoves_cats, hslen]
  refine ⟨ha, hb, ?_, ?_, ?_, ?_⟩
  · rw [hlg]
    unfold groupLog
    have hc : (sortByNum (fs.map (fun f => (num f, f)))).length ≠ 8 := by
      rw [hslen]
      exact Nat.ne_of_lt hlen
    apply List.mem_append_left
    apply List.mem_append_left
    rw [if_pos hc, hslen]
    exact List.mem_singleton_self _
  · have hcalc : (movesOf fs).map (fun m => num m.1)
        = (sortByNum (fs.map (fun f => (num f, f)))).map Prod.fst := by
      have h1 : (movesOf fs).map (fun m => num m.1)
          = ((movesOf fs).map Prod.fst).map num := by
        rw [List.map_map]
        rfl
      rw [h1, ha, List.map_map]
      apply List.map_congr_left
      intro v hv
      have hvp : v ∈ fs.map (fun f => (num f, f)) :=
        (sortByNum_perm _).mem_iff.mp hv
      exact ((pair_fst_eq hvp).1).symm
    rw [hcalc]
    exact sortByNum_map_fst_sorted _
  · intro c hc m hm heq
    have hm2 : m.2 ∈ categories.take fs.length := by
      rw [← hb]
      exact List.mem_map_of_mem Prod.snd hm
    have hcatnd : categories.Nodup := by decide
    exact pairwise_take_drop hcatnd fs.length m.2 hm2 c hc heq
  · intro pre c hc
    exact mem_dirsAfter pre hc

theorem C5_witness :
    noteMsg "d" 5 ∈ logOf
      ["d_0002.jpg_vis_results.jpg", "d_0000.jpg_vis_results.jpg",
       "d_0004.jpg_vis_results.jpg", "d_0001.jpg_vis_results.jpg",
       "d_0003.jpg_vis_results.jpg"]
    ∧ "3.Top" ∈ dirsAfter [] := by
  have h := C5_short_group
    ["d_0002.jpg_vis_results.jpg", "d_0000.jpg_vis_results.jpg",
     "d_0004.jpg_vis_results.jpg", "d_0001.jpg_vis_results.jpg",
     "d_0003.jpg_vis_results.jpg"] "d"
    (fun f => ((matchFile f).getD ("", 0)).2)
    (by decide) (by decide) (by decide) (by decide)
  exact ⟨h.2.2.1, h.2.2.2.2.2 [] "3.Top" (by decide)⟩

theorem C6_witness :
    movesOf ["0.Address", "notes.txt", "b_12.jpg"] = []
    ∧ logOf ["0.Address", "notes.txt", "b_12.jpg"] = []
    ∧ remainingAfter ["0.Address", "notes.txt", "b_12.jpg"]
        = ["0.Address", "notes.txt", "b_12.jpg"] :=
  C6_no_matching_noop ["0.Address", "notes.txt", "b_12.jpg"] (by decide)

/-- C7: the destination of a file whose extracted prefix is `P` depends only
on the `P`-group of the listing, so adding or removing another prefix's files
does not change it; a file of a full (`0,…,7`) `P`-group lands in the
category of its frame number whatever else the directory holds; and on a
duplicate-free listing no filename is moved twice, so the destination paths
of distinct moves cannot collide. -/
theorem C7_pfx_independence (l₁ l₂ : List String) (P f : String) (n : Nat)
    (hf : matchFile f = some (P, n))
    (hjf : endsWithJpg f = true)
    (hmem : f ∈ l₁) :
    (pfxPairs P (jpgOnly l₁) = pfxPairs P (jpgOnly l₂) →
      List.lookup f (movesOf l₁) = List.lookup f (movesOf l₂))
    ∧ ((pfxPairs P (jpgOnly l₁)).map Prod.fst ~ List.range 8 →
      (f, categories.getD n "") ∈ movesOf l₁)
    ∧ (l₁.Nodup → ((movesOf l₁).map Prod.fst).Nodup) := by
  refine ⟨?_, ?_, fun h => movesOf_names_nodup h⟩
  · intro hsame
    rw [lookup_movesOf hf, lookup_movesOf hf, hsame]
  · intro hfull
    have hfj : f ∈ jpgOnly l₁ := List.mem_filter.mpr ⟨hmem, hjf⟩
    have hpp : (n, f) ∈ pfxPairs P (jpgOnly l₁) := by
      unfold pfxPairs
      rw [List.mem_filterMap]
      refine ⟨f, hfj, ?_⟩
      simp [hf]
    have hne : pfxPairs P (jpgOnly l₁) ≠ [] := by
      intro h0
      rw [h0] at hpp
      cases hpp
    exact groupMoves_sub_movesOf hne (groupMoves_full hfull hpp)

theorem C7_witness :
    ("a_0005.jpg_vis_results.jpg", "5.Impact") ∈ movesOf
      ["a_0000.jpg_vis_results.jpg", "b_0000.jpg_vis_results.jpg",
       "a_0001.jpg_vis_results.jpg", "b_0001.jpg_vis_results.jpg",
       "a_0002.jpg_vis_results.jpg", "b_0002.jpg_vis_results.jpg",
       "a_0003.jpg_vis_results.jpg", "b_0003.jpg_vis_results.jpg",
       "a_0004.jpg_vis_results.jpg", "b_0004.jpg_vis_results.jpg",
       "a_0005.jpg_vis_results.jpg", "b_0005.jpg_vis_results.jpg",
       "a_0006.jpg_vis_results.jpg", "b_0006.jpg_vis_results.jpg",
       "a_0007.jpg_vis_results.jpg", "b_0007.jpg_vis_results.jpg"]
    ∧ List.lookup "a_0005.jpg_vis_results.jpg" (movesOf
      ["a_0000.jpg_vis_results.jpg", "b_0000.jpg_vis_results.jpg",
       "a_0001.jpg_vis_results.jpg", "b_0001.jpg_vis_results.jpg",
       "a_0002.jpg_vis_results.jpg", "b_0002.jpg_vis_results.jpg",
       "a_0003.jpg_vis_results.jpg", "b_0003.jpg_vis_results.jpg",
       "a_0004.jpg_vis_results.jpg", "b_0004.jpg_vis_results.jpg",
       "a_0005.jpg_vis_results.jpg", "b_0005.jpg_vis_results.jpg",
       "a_0006.jpg_vis_results.jpg", "b_0006.jpg_vis_results.jpg",
       "a_0007.jpg_vis_results.jpg", "b_0007.jpg_vis_results.jpg"])
        = List.lookup "a_0005.jpg_vis_results.jpg" (movesOf
      ["a_0000.jpg_vis_results.jpg", "a_0001.jpg_vis_results.jpg",
       "a_0002.jpg_vis_results.jpg", "a_0003.jpg_vis_results.jpg",
       "a_0004.jpg_vis_results.jpg", "a_0005.jpg_vis_results.jpg",
       "a_0006.jpg_vis_results.jpg", "a_0007.jpg_vis_results.jpg"]) := by
  have h := C7_pfx_independence
    ["a_0000.jpg_vis_results.jpg", "b_0000.jpg_vis_results.jpg",
     "a_0001.jpg_vis_results.jpg", "b_0001.jpg_vis_results.jpg",
     "a_0002.jpg_vis_results.jpg", "b_0002.jpg_vis_results.jpg",
     "a_0003.jpg_vis_results.jpg", "b_0003.jpg_vis_results.jpg",
     "a_0004.jpg_vis_results.jpg", "b_0004.jpg_vis_results.jpg",
     "a_0005.jpg_vis_results.jpg", "b_0005.jpg_vis_results.jpg",
     "a_0006.jpg_vis_results.jpg", "b_0006.jpg_vis_results.jpg",
     "a_0007.jpg_vis_results.jpg", "b_0007.jpg_vis_results.jpg"]
    ["a_0000.jpg_vis_results.jpg", "a_0001.jpg_vis_results.jpg",
     "a_0002.jpg_vis_results.jpg", "a_0003.jpg_vis_results.jpg",
     "a_0004.jpg_vis_results.jpg", "a_0005.jpg_vis_results.jpg",
     "a_0006.jpg_vis_results.jpg", "a_0007.jpg_vis_results.jpg"]
    "a" "a_0005.jpg_vis_results.jpg" 5 (by decide) (by decide) (by decide)
  exact ⟨h.2.1 (by decide), h.1 (by decide)⟩

/-- C8: the eight category directories all exist under the target after any
run (created when absent, kept when present), and in the trace of filesystem
effects every directory creation precedes every file move. -/
theorem C8_dirs_created (pre listing : List String) :
    (∀ c ∈ categories, c ∈ dirsAfter pre)
    ∧ (∀ d ∈ pre, d ∈ dirsAfter pre)
    ∧ ((evTrace pre listing).take
        (categories.filter (fun c => !(pre.contains c))).length).all
          FsEvent.isMkdir = true
    ∧ ((evTrace pre listing).drop
        (categories.filter (fun c => !(pre.contains c))).length).all
          (fun e => !(FsEvent.isMkdir e)) = true := by
  refine ⟨fun c hc => mem_dirsAfter pre hc,
    fun d hd => mem_dirsAfter_of_pre pre hd, ?_, ?_⟩
  · unfold evTrace
    rw [List.take_left' (List.length_map _ _), List.all_eq_true]
    intro e he
    rw [List.mem_map] at he
    obtain ⟨c, _, hc⟩ := he
    rw [← hc]
    rfl
  · unfold evTrace
    rw [List.drop_left' (List.length_map _ _), List.all_eq_true]
    intro e he
    rw [List.mem_map] at he
    obtain ⟨m, _, hm⟩ := he
    rw [← hm]
    rfl

theorem C8_witness :
    "7.Finish" ∈ dirsAfter ["3.Top"]
    ∧ ((evTrace ["3.Top"] ["e_0001.jpg_vis_results.jpg"]).take 7).all
        FsEvent.isMkdir = true := by
  have h := C8_dirs_created ["3.Top"] ["e_0001.jpg_vis_results.jpg"]
  exact ⟨h.1 "7.Finish" (by decide), h.2.2.1⟩

/-- C9: every move takes a file of the source listing to one of the 8
categories at path `<target>/<category>/<filename>` with the filename kept
verbatim; on a duplicate-free listing no filename is moved twice, every
original file is afterwards either still in the source directory or moved
(nothing is deleted or duplicated), and never both. -/
theorem C9_move_preservation (l : List String) (tgt : String)
    (hnd : l.Nodup) :
    (∀ m ∈ movesOf l, m.1 ∈ l ∧ m.2 ∈ categories
        ∧ dstPath tgt m.2 m.1 = tgt ++ "/" ++ m.2 ++ "/" ++ m.1)
    ∧ ((movesOf l).map Prod.fst).Nodup
    ∧ (∀ f, f ∈ l ↔ (f ∈ remainingAfter l ∨ ∃ c, (f, c) ∈ movesOf l))
    ∧ (∀ f, ¬ (f ∈ remainingAfter l ∧ ∃ c, (f, c) ∈ movesOf l)) := by
  have hnodupNames := movesOf_names_nodup hnd
  refine ⟨fun m hm => ⟨(mem_movesOf hm).1, (mem_movesOf hm).2.1, rfl⟩,
    hnodupNames, ?_, ?_⟩
  · intro f
    constructor
    · intro hf
      by_cases hmoved : f ∈ (movesOf l).map Prod.fst
      · right
        rw [List.mem_map] at hmoved
        obtain ⟨m, hm, hfm⟩ := hmoved
        refine ⟨m.2, ?_⟩
        rw [← hfm]
        exact hm
      · left
        rw [remainingAfter_eq]
        apply mem_foldl_erase _ _ _ _ hf
        intro nm hnm heq
        exact hmoved (heq ▸ hnm)
    · intro h
      rcases h with h | ⟨c, hc⟩
      · rw [remainingAfter_eq] at h
        exact (foldl_erase_sublist _ _).subset h
      · exact (mem_movesOf hc).1
  · intro f hcontra
    obtain ⟨hrem, c, hc⟩ := hcontra
    have hfn : f ∈ (movesOf l).map Prod.fst :=
      List.mem_map_of_mem Prod.fst hc
    rw [remainingAfter_eq] at hrem
    exact not_mem_foldl_erase _ _ _ hfn hnd hrem

theorem C9_witness :
    ((movesOf ["x_0001.jpg_vis_results.jpg", "x_0000.jpg_vis_results.jpg",
        "notes.txt"]).map Prod.fst).Nodup
    ∧ ¬ ("x_0000.jpg_vis_results.jpg" ∈ remainingAfter
          ["x_0001.jpg_vis_results.jpg", "x_0000.jpg_vis_results.jpg",
           "notes.txt"]
        ∧ ∃ c, ("x_0000.jpg_vis_results.jpg", c) ∈ movesOf
          ["x_0001.jpg_vis_results.jpg", "x_0000.jpg_vis_results.jpg",
           "notes.txt"]) := by
  have h := C9_move_preservation
    ["x_0001.jpg_vis_results.jpg", "x_0000.jpg_vis_results.jpg", "notes.txt"]
    "out" (by decide)
  exact ⟨h.2.1, h.2.2.2 "x_0000.jpg_vis_results.jpg"⟩

/-- C10: with the skip-processed flag set, an image whose output file already
exists in the output folder is not reprocessed: the step prints the skip
message, advances the progress count by one, leaves the output folder
unchanged, and the loop continues with the remaining images. -/
theorem C10_skip_processed (outputFolder subPath : String) (st : DrvState)
    (file : String) (rest : List String)
    (hex : hasFile st.outFiles (outPathOf outputFolder file) = true) :
    stepImage true outputFolder subPath st file
        = ⟨st.outFiles, st.progress + 1, st.log ++ [skipMsg file]⟩
    ∧ runImages true outputFolder subPath (file :: rest) st
        = runImages true outputFolder subPath rest
            ⟨st.outFiles, st.progress + 1, st.log ++ [skipMsg file]⟩ := by
  have h1 : stepImage true outputFolder subPath st file
      = ⟨st.outFiles, st.progress + 1, st.log ++ [skipMsg file]⟩ := by
    unfold stepImage
    rw [if_pos]
    exact ⟨rfl, hex⟩
  refine ⟨h1, ?_⟩
  unfold runImages
  rw [List.foldl_cons, h1]

theorem C10_witness :
    stepImage true "out" "d"
        ⟨[("out/img1.jpg_vis_results.jpg", "vis_of d/img1.jpg")], 0, []⟩
        "img1.jpg"
      = ⟨[("out/img1.jpg_vis_results.jpg", "vis_of d/img1.jpg")], 1,
          [skipMsg "img1.jpg"]⟩
    ∧ runImages true "out" "d" ["img1.jpg", "img2.jpg"]
        ⟨[("out/img1.jpg_vis_results.jpg", "vis_of d/img1.jpg")], 0, []⟩
      = runImages true "out" "d" ["img2.jpg"]
        ⟨[("out/img1.jpg_vis_results.jpg", "vis_of d/img1.jpg")], 1,
          [skipMsg "img1.jpg"]⟩ :=
  C10_skip_processed "out" "d"
    ⟨[("out/img1.jpg_vis_results.jpg", "vis_of d/img1.jpg")], 0, []⟩
    "img1.jpg" ["img2.jpg"] (by decide)

end GolfSort
